import Mathlib

/-!
Shallow embedding of `site/serve.py`: a static-file HTTP server that maps a
fixed route table of URL paths to local `index.html` files, plus two
`llms.txt` discovery conventions, and returns 404 otherwise.

Python strings are modelled as `List Char`, file contents as `List Nat`
(bytes), and the filesystem as a partial map from absolute file path to
contents (`os.path.exists` is definedness of that map).
-/

namespace Serve

/-- Python strings modelled as lists of characters. -/
abbrev PyStr := List Char

/-- The character list of a Lean string literal. -/
def str (s : String) : PyStr := s.data

/-- File contents as raw bytes. -/
abbrev Bytes := List Nat

/-- The filesystem: maps an absolute file path to its byte contents,
`none` when the file does not exist. -/
abbrev FS := PyStr → Option Bytes

/-- Python `os.path.exists f`. -/
def existsFS (fs : FS) (f : PyStr) : Bool := (fs f).isSome

/-- One step of `posixpath.join`: append component `b` to the accumulated
`path` (a component starting with `/` resets; a separator is inserted unless
the accumulated path is empty or already ends with one). -/
def joinOne (path b : PyStr) : PyStr :=
  if b.head? = some '/' then b
  else if path = [] ∨ path.getLast? = some '/' then path ++ b
  else path ++ '/' :: b

/-- Python `os.path.join p rest` for POSIX paths. -/
def osPathJoin (p : PyStr) (rest : List PyStr) : PyStr := rest.foldl joinOne p

/-- The route table `ROUTES` of `serve.py` (lines 8-36): canonical URL path →
absolute file path under the script directory `base`. -/
def ROUTES (base : PyStr) : List (PyStr × PyStr) :=
  [ (str "/",       osPathJoin base [str "agentstack", str "index.html"]),
    (str "/wallet", osPathJoin base [str "wallet", str "index.html"]),
    (str "/spawn",  osPathJoin base [str "spawn", str "index.html"]),
    (str "/store",  osPathJoin base [str "store", str "index.html"]),
    (str "/vault",  osPathJoin base [str "vault", str "index.html"]),
    (str "/dns",    osPathJoin base [str "dns", str "index.html"]),
    (str "/email",  osPathJoin base [str "email", str "index.html"]),
    (str "/ring",   osPathJoin base [str "ring", str "index.html"]),
    (str "/cron",   osPathJoin base [str "cron", str "index.html"]),
    (str "/pipe",   osPathJoin base [str "pipe", str "index.html"]),
    (str "/pay",    osPathJoin base [str "pay", str "index.html"]),
    (str "/mem",    osPathJoin base [str "mem", str "index.html"]),
    (str "/infer",  osPathJoin base [str "infer", str "index.html"]),
    (str "/watch",  osPathJoin base [str "watch", str "index.html"]),
    (str "/browse", osPathJoin base [str "browse", str "index.html"]),
    (str "/auth",   osPathJoin base [str "auth", str "index.html"]),
    (str "/code",   osPathJoin base [str "code", str "index.html"]),
    (str "/trace",  osPathJoin base [str "trace", str "index.html"]),
    (str "/docs",   osPathJoin base [str "docs", str "index.html"]),
    (str "/pins",   osPathJoin base [str "pins", str "index.html"]),
    (str "/seek",   osPathJoin base [str "seek", str "index.html"]),
    (str "/mart",   osPathJoin base [str "mart", str "index.html"]),
    (str "/hive",   osPathJoin base [str "hive", str "index.html"]),
    (str "/ads",    osPathJoin base [str "ads", str "index.html"]),
    (str "/ship",   osPathJoin base [str "ship", str "index.html"]),
    (str "/hands",  osPathJoin base [str "hands", str "index.html"]),
    (str "/id",     osPathJoin base [str "id", str "index.html"]),
    (str "/corp",   osPathJoin base [str "corp", str "index.html"]) ]

/-- The section names of the route table, in table order (route key `/` maps
to section `agentstack`; every other key is `/` followed by its section). -/
def SECTIONS : List PyStr :=
  [str "wallet", str "spawn", str "store", str "vault", str "dns", str "email",
   str "ring", str "cron", str "pipe", str "pay", str "mem", str "infer",
   str "watch", str "browse", str "auth", str "code", str "trace", str "docs",
   str "pins", str "seek", str "mart", str "hive", str "ads", str "ship",
   str "hands", str "id", str "corp"]

/-- The keys of the route table. -/
def KEYS : List PyStr := str "/" :: SECTIONS.map (fun s => '/' :: s)

/-- Python `s.rstrip("/")`: remove every trailing `/`. -/
def rstripSlash (s : PyStr) : PyStr := (s.reverse.dropWhile (fun c => c = '/')).reverse

/-- Python `s.strip("/")`: remove every leading and trailing `/`. -/
def stripSlash (s : PyStr) : PyStr := rstripSlash (s.dropWhile (fun c => c = '/'))

/-- Python `s.split("/")`. -/
def splitSlash : PyStr → List PyStr
  | [] => [[]]
  | c :: rest =>
    if c = '/' then [] :: splitSlash rest
    else
      match splitSlash rest with
      | s :: ss => (c :: s) :: ss
      | [] => [[c]]

/-- Python `s.endswith(suf)`. -/
def endsWith (suf s : PyStr) : Bool := List.isSuffixOf suf s

/-- Python `dict.get` on an association list (the keys of `ROUTES` are
pairwise distinct, so first-match lookup is dictionary lookup). -/
def dictGet : List (PyStr × PyStr) → PyStr → Option PyStr
  | [], _ => none
  | (k1, v) :: rest, k => if k = k1 then some v else dictGet rest k

/-- The `llms.txt` part of `H._resolve_file` (lines 46-57), reached when the
route-table lookup did not return an existing file. -/
def resolveLlms (base : PyStr) (fs : FS) (path : PyStr) : Option PyStr :=
  if path = str "/llms.txt" then
    let f := osPathJoin base [str "llms.txt"]
    if existsFS fs f then some f else none
  else if endsWith (str "/llms.txt") path then
    match splitSlash (stripSlash path) with
    | [primitive, _] =>
      let f := osPathJoin base [primitive, str "llms.txt"]
      if existsFS fs f then some f else none
    | _ => none
  else none

/-- Method `H._resolve_file` (lines 41-57): route-table lookup (`if f and
os.path.exists(f)` — a found value is a nonempty string, and a found but
missing file falls through to the `llms.txt` conventions). -/
def resolve_file (base : PyStr) (fs : FS) (path : PyStr) : Option PyStr :=
  match dictGet (ROUTES base) path with
  | some f => if !f.isEmpty && existsFS fs f then some f else resolveLlms base fs path
  | none => resolveLlms base fs path

/-- Method `H._content_type` (lines 59-64). -/
def content_type (file_path : PyStr) : PyStr :=
  if endsWith (str ".html") file_path then str "text/html; charset=utf-8"
  else if endsWith (str ".txt") file_path then str "text/plain; charset=utf-8"
  else str "application/octet-stream"

/-- Python `urlparse(target).path` for an origin-form request target (no scheme, no
authority): the part before the query and fragment delimiters, the fragment
(`#`) being split off first as in `urllib`. -/
def urlparsePath (target : PyStr) : PyStr :=
  (target.takeWhile (fun c => c ≠ '#')).takeWhile (fun c => c ≠ '?')

/-- Path normalization of `do_GET` line 68: `raw_path.rstrip("/") or "/"`
(the empty string is falsy in Python). -/
def normalize (raw : PyStr) : PyStr :=
  if rstripSlash raw = [] then str "/" else rstripSlash raw

/-- An HTTP response as produced by `do_GET`: status code, the Content-Type
header when one is sent, and the body bytes. -/
structure Response where
  status : Nat
  contentType : Option PyStr
  body : Bytes
deriving DecidableEq

/-- Method `H.do_GET` (lines 66-78): normalize the request target, resolve it, and
answer 200 with the file bytes or 404 with an empty body. -/
def do_GET (base : PyStr) (fs : FS) (target : PyStr) : Response :=
  let p := normalize (urlparsePath target)
  match resolve_file base fs p with
  | some f => { status := 200, contentType := some (content_type f), body := (fs f).getD [] }
  | none => { status := 404, contentType := none, body := [] }

/-- Serving a sequence of GET requests in order; the handler (class `H`) has
no mutable attributes, so each request is answered by the same pure
`do_GET` against the same filesystem. -/
def serveAll (base : PyStr) (fs : FS) (targets : List PyStr) : List Response :=
  targets.map (do_GET base fs)

/-- POSIX interpretation of one path segment onto a directory stack: empty
and `.` segments are skipped, `..` pops one level. -/
def stepSeg (acc : List PyStr) (s : PyStr) : List PyStr :=
  if s = [] ∨ s = str "." then acc
  else if s = str ".." then acc.dropLast
  else acc ++ [s]

/-- The directory-segment list a slash-separated path refers to, after
resolving `.` and `..` segments. -/
def interpPath (p : PyStr) : List PyStr :=
  (splitSlash (stripSlash p)).foldl stepSeg []

/-- Join path segments with `/` separators. -/
def joinSegs : List PyStr → PyStr
  | [] => []
  | [s] => s
  | s :: rest => s ++ '/' :: joinSegs rest

/-- An absolute path built from its segments. -/
def joinAbs (bs : List PyStr) : PyStr := '/' :: joinSegs bs

/-- A concrete filesystem holding only `/b/wallet/index.html`. -/
def fsWallet : FS := fun p => if p = str "/b/wallet/index.html" then some [1, 2] else none

/-- A concrete filesystem holding only `/b/wallet/llms.txt`. -/
def fsLlms : FS := fun p => if p = str "/b/wallet/llms.txt" then some [7] else none

/-- The empty filesystem. -/
def fsEmpty : FS := fun _ => none

/-- A concrete filesystem holding one file reachable only through `..`. -/
def fsUp : FS := fun p => if p = str "/srv/site/../llms.txt" then some [9] else none

/-! ### Lemmas about `rstrip("/")` and normalization -/

theorem rstripSlash_concat_slash (s : PyStr) : rstripSlash (s ++ ['/']) = rstripSlash s := by
  simp [rstripSlash, List.reverse_append]

theorem rstripSlash_append_replicate (s : PyStr) (n : Nat) :
    rstripSlash (s ++ List.replicate n '/') = rstripSlash s := by
  induction n with
  | zero => simp
  | succ n ih =>
    rw [List.replicate_succ', ← List.append_assoc, rstripSlash_concat_slash]
    exact ih

theorem dropWhile_eq_self_of_head {f : Char → Bool} {l : PyStr}
    (h : ∀ c, l.head? = some c → ¬ f c) : l.dropWhile f = l := by
  cases l with
  | nil => rfl
  | cons c t => exact List.dropWhile_cons_of_neg (h c rfl)

theorem rstripSlash_eq_self {s : PyStr} (h : s.getLast? ≠ some '/') : rstripSlash s = s := by
  unfold rstripSlash
  rw [dropWhile_eq_self_of_head, List.reverse_reverse]
  intro c hc
  simp only [decide_eq_true_eq]
  intro e
  apply h
  rw [← List.head?_reverse, hc, e]

theorem normalize_append_replicate (raw : PyStr) (n : Nat) :
    normalize (raw ++ List.replicate n '/') = normalize raw := by
  unfold normalize
  rw [rstripSlash_append_replicate]

theorem getLast?_append_no_slash {s : PyStr} (hne : s ≠ []) (hsl : '/' ∉ s) (l : PyStr) :
    (l ++ s).getLast? ≠ some '/' := by
  intro h
  rw [List.getLast?_append] at h
  rcases hg : s.getLast? with _ | y
  · exact hne (List.getLast?_eq_none_iff.mp hg)
  · rw [hg] at h
    simp only [Option.or_some, Option.some.injEq] at h
    subst h
    exact hsl (List.mem_of_getLast?_eq_some hg)

/-! ### Lemmas about `urlparse(...).path` -/

theorem takeWhile_all {f : Char → Bool} {l : PyStr} (h : ∀ c ∈ l, f c) : l.takeWhile f = l := by
  have := @List.takeWhile_append_of_pos Char f l [] h
  simpa using this

theorem urlparsePath_eq_self {p : PyStr} (hq : '?' ∉ p) (hh : '#' ∉ p) :
    urlparsePath p = p := by
  unfold urlparsePath
  have h1 : p.takeWhile (fun c => (c ≠ '#' : Bool)) = p := by
    apply takeWhile_all
    intro c hc
    simp only [ne_eq, decide_not, Bool.not_eq_true', decide_eq_false_iff_not]
    intro e
    exact hh (e ▸ hc)
  rw [h1]
  apply takeWhile_all
  intro c hc
  simp only [ne_eq, decide_not, Bool.not_eq_true', decide_eq_false_iff_not]
  intro e
  exact hq (e ▸ hc)

theorem urlparsePath_query (p q : PyStr) (hq : '?' ∉ p) (hh : '#' ∉ p) :
    urlparsePath (p ++ '?' :: q) = p := by
  unfold urlparsePath
  rw [List.takeWhile_append_of_pos
      (by intro c hc; simp only [ne_eq, decide_not, Bool.not_eq_true', decide_eq_false_iff_not]
          intro e; exact hh (e ▸ hc)),
    List.takeWhile_cons_of_pos (by decide),
    List.takeWhile_append_of_pos
      (by intro c hc; simp only [ne_eq, decide_not, Bool.not_eq_true', decide_eq_false_iff_not]
          intro e; exact hq (e ▸ hc)),
    List.takeWhile_cons_of_neg (by decide)]
  simp

/-! ### Lemmas about `split("/")` -/

theorem splitSlash_ne_nil (s : PyStr) : splitSlash s ≠ [] := by
  match s with
  | [] => simp [splitSlash]
  | c :: rest =>
    unfold splitSlash
    split
    · simp
    · split <;> simp

theorem splitSlash_cons_slash (t : PyStr) : splitSlash ('/' :: t) = [] :: splitSlash t := by
  simp [splitSlash]

theorem splitSlash_cons_of_ne {c : Char} (t : PyStr) (hc : c ≠ '/') :
    splitSlash (c :: t) =
      match splitSlash t with
      | s :: ss => (c :: s) :: ss
      | [] => [[c]] := by
  simp only [splitSlash, if_neg hc]

theorem splitSlash_append_slash (x y : PyStr) :
    splitSlash (x ++ '/' :: y) = splitSlash x ++ splitSlash y := by
  induction x with
  | nil =>
    rw [List.nil_append, splitSlash_cons_slash]
    rfl
  | cons c x ih =>
    by_cases hc : c = '/'
    · subst hc
      rw [List.cons_append, splitSlash_cons_slash, splitSlash_cons_slash, ih, List.cons_append]
    · rw [List.cons_append, splitSlash_cons_of_ne _ hc, splitSlash_cons_of_ne _ hc, ih]
      rcases hx : splitSlash x with _ | ⟨s, ss⟩
      · exact absurd hx (splitSlash_ne_nil x)
      · simp

theorem splitSlash_no_slash {s : PyStr} (h : '/' ∉ s) : splitSlash s = [s] := by
  induction s with
  | nil => rfl
  | cons c rest ih =>
    rw [List.mem_cons] at h
    push_neg at h
    unfold splitSlash
    rw [if_neg (Ne.symm h.1), ih h.2]

/-! ### Lemmas about suffixes and `endswith` -/

theorem endsWith_iff {suf s : PyStr} : endsWith suf s = true ↔ suf <:+ s := by
  simp [endsWith]

theorem suffix_append_iff_of_le {s b : PyStr} (p : PyStr) (h : s.length ≤ b.length) :
    s <:+ p ++ b ↔ s <:+ b := by
  induction p with
  | nil => simp
  | cons a p ih =>
    rw [List.cons_append, List.suffix_cons_iff]
    constructor
    · rintro (rfl | hs)
      · exfalso
        simp only [List.length_cons, List.length_append] at h
        omega
      · exact ih.mp hs
    · intro hs
      exact Or.inr (ih.mpr hs)

theorem getLast?_of_suffix {s p : PyStr} (hs : s <:+ p) (hne : s ≠ []) :
    p.getLast? = s.getLast? := by
  obtain ⟨t, rfl⟩ := hs
  rw [List.getLast?_append]
  rcases hg : s.getLast? with _ | y
  · exact absurd (List.getLast?_eq_none_iff.mp hg) hne
  · rfl

/-! ### Lemmas about `os.path.join` -/

theorem joinOne_cases (p b : PyStr) (hb : b.head? ≠ some '/') :
    joinOne p b = p ++ b ∨ joinOne p b = (p ++ ['/']) ++ b := by
  unfold joinOne
  rw [if_neg hb]
  split
  · exact Or.inl rfl
  · right
    simp

theorem joinOne_ne_nil {b : PyStr} (p : PyStr) (hb : b ≠ []) : joinOne p b ≠ [] := by
  unfold joinOne
  split
  · exact hb
  · split <;> simp [hb]

theorem suffix_joinOne {s b : PyStr} (p : PyStr) (hb : b.head? ≠ some '/') (h : s <:+ b) :
    s <:+ joinOne p b := by
  rcases joinOne_cases p b hb with he | he <;> rw [he] <;>
    exact h.trans (List.suffix_append _ _)

theorem suffix_joinOne_iff {s b : PyStr} (p : PyStr) (hb : b.head? ≠ some '/')
    (hl : s.length ≤ b.length) : s <:+ joinOne p b ↔ s <:+ b := by
  rcases joinOne_cases p b hb with he | he <;> rw [he] <;>
    exact suffix_append_iff_of_le _ hl

/-! ### Lemmas about `dict.get` and the route table -/

theorem dictGet_eq_none {d : List (PyStr × PyStr)} {k : PyStr} (h : k ∉ d.map Prod.fst) :
    dictGet d k = none := by
  induction d with
  | nil => rfl
  | cons e rest ih =>
    obtain ⟨k1, v⟩ := e
    simp only [List.map_cons, List.mem_cons] at h
    push_neg at h
    unfold dictGet
    rw [if_neg h.1]
    exact ih h.2

theorem dictGet_eq_some {d : List (PyStr × PyStr)} {k v : PyStr}
    (hnd : (d.map Prod.fst).Nodup) (h : (k, v) ∈ d) : dictGet d k = some v := by
  induction d with
  | nil => simp at h
  | cons e rest ih =>
    obtain ⟨k1, v1⟩ := e
    simp only [List.map_cons, List.nodup_cons] at hnd
    rw [List.mem_cons] at h
    rcases h with h | h
    · injection h with h1 h2
      subst h1
      subst h2
      unfold dictGet
      rw [if_pos rfl]
    · have hk : k ≠ k1 := by
        intro e
        subst e
        exact hnd.1 (List.mem_map_of_mem Prod.fst h)
      unfold dictGet
      rw [if_neg hk]
      exact ih hnd.2 h

theorem ROUTES_eq (base : PyStr) : ROUTES base =
    (str "/", osPathJoin base [str "agentstack", str "index.html"]) ::
      SECTIONS.map (fun s => ('/' :: s, osPathJoin base [s, str "index.html"])) := rfl

theorem ROUTES_keys (base : PyStr) : (ROUTES base).map Prod.fst = KEYS := rfl

theorem KEYS_nodup : KEYS.Nodup := by decide

theorem SECTIONS_clean :
    ∀ s ∈ SECTIONS, s ≠ [] ∧ '/' ∉ s ∧ '#' ∉ s ∧ '?' ∉ s := by decide

theorem KEYS_no_llms : ∀ k ∈ KEYS, endsWith (str "/llms.txt") k = false := by decide

theorem mem_ROUTES {base k f : PyStr} (h : (k, f) ∈ ROUTES base) :
    (k = str "/" ∧ f = osPathJoin base [str "agentstack", str "index.html"]) ∨
      ∃ s ∈ SECTIONS, k = '/' :: s ∧ f = osPathJoin base [s, str "index.html"] := by
  rw [ROUTES_eq, List.mem_cons] at h
  rcases h with h | h
  · left
    injection h with h1 h2
    exact ⟨h1, h2⟩
  · right
    rw [List.mem_map] at h
    obtain ⟨s, hs, he⟩ := h
    injection he with h1 h2
    exact ⟨s, hs, h1.symm, h2.symm⟩

theorem osPathJoin_one (p a : PyStr) : osPathJoin p [a] = joinOne p a := rfl

theorem osPathJoin_two (p a b : PyStr) : osPathJoin p [a, b] = joinOne (joinOne p a) b := rfl

theorem key_norm {base k f : PyStr} (hmem : (k, f) ∈ ROUTES base) :
    '?' ∉ k ∧ '#' ∉ k ∧ normalize k = k ∧ k ≠ [] := by
  rcases mem_ROUTES hmem with ⟨hk, -⟩ | ⟨s, hs, hk, -⟩
  · subst hk
    exact ⟨by decide, by decide, by decide, by decide⟩
  · subst hk
    obtain ⟨hne, hsl, hh, hq⟩ := SECTIONS_clean s hs
    have hlast : ('/' :: s).getLast? ≠ some '/' := by
      have he : '/' :: s = ['/'] ++ s := rfl
      rw [he]
      exact getLast?_append_no_slash hne hsl _
    refine ⟨?_, ?_, ?_, by simp⟩
    · simp only [List.mem_cons]
      push_neg
      exact ⟨by decide, hq⟩
    · simp only [List.mem_cons]
      push_neg
      exact ⟨by decide, hh⟩
    · unfold normalize
      rw [rstripSlash_eq_self hlast, if_neg (by simp)]

theorem resolve_route {base : PyStr} (fs : FS) {k f : PyStr} {c : Bytes}
    (hmem : (k, f) ∈ ROUTES base) (hfs : fs f = some c) :
    resolve_file base fs k = some f := by
  have hget : dictGet (ROUTES base) k = some f :=
    dictGet_eq_some (by rw [ROUTES_keys]; exact KEYS_nodup) hmem
  have hne : f ≠ [] := by
    rcases mem_ROUTES hmem with ⟨-, hf⟩ | ⟨s, -, -, hf⟩ <;> subst hf
    all_goals
      rw [osPathJoin_two]
      apply joinOne_ne_nil
      decide
  have h1 : (!f.isEmpty && existsFS fs f) = true := by
    simp [List.isEmpty_eq_false.mpr hne, existsFS, hfs]
  unfold resolve_file
  rw [hget]
  show (if (!f.isEmpty && existsFS fs f) = true then some f else resolveLlms base fs k) = some f
  rw [if_pos h1]

theorem content_type_index_html (p : PyStr) :
    content_type (joinOne p (str "index.html")) = str "text/html; charset=utf-8" := by
  have h : endsWith (str ".html") (joinOne p (str "index.html")) = true := by
    rw [endsWith_iff]
    exact suffix_joinOne _ (by decide) (by decide)
  simp [content_type, h]

theorem content_type_llms (p : PyStr) :
    content_type (joinOne p (str "llms.txt")) = str "text/plain; charset=utf-8" := by
  have hh : endsWith (str ".html") (joinOne p (str "llms.txt")) = false := by
    by_contra hcon
    rw [Bool.not_eq_false, endsWith_iff,
      suffix_joinOne_iff _ (by decide) (by decide)] at hcon
    exact absurd hcon (by decide)
  have ht : endsWith (str ".txt") (joinOne p (str "llms.txt")) = true := by
    rw [endsWith_iff]
    exact suffix_joinOne _ (by decide) (by decide)
  simp [content_type, hh, ht]

/-- Claim C1: for every key `k` in the route table whose mapped file exists
on disk, a GET request to `k`, and also to `k` followed by one trailing
slash, returns status 200 whose body is the exact byte contents of the
mapped file and whose Content-Type is `text/html`. -/
theorem C1_route_table_serves_html (base : PyStr) (fs : FS) (k f : PyStr) (c : Bytes)
    (hmem : (k, f) ∈ ROUTES base) (hfs : fs f = some c) :
    do_GET base fs k =
      { status := 200, contentType := some (str "text/html; charset=utf-8"), body := c } ∧
    do_GET base fs (k ++ str "/") =
      { status := 200, contentType := some (str "text/html; charset=utf-8"), body := c } := by
  obtain ⟨hq, hh, hnorm, hkne⟩ := key_norm hmem
  have hres := resolve_route fs hmem hfs
  have hct : content_type f = str "text/html; charset=utf-8" := by
    rcases mem_ROUTES hmem with ⟨-, hf⟩ | ⟨s, -, -, hf⟩ <;> subst hf
    all_goals
      rw [osPathJoin_two]
      exact content_type_index_html _
  constructor
  · simp only [do_GET]
    rw [urlparsePath_eq_self hq hh, hnorm, hres]
    simp [hct, hfs]
  · have hq2 : '?' ∉ k ++ str "/" := by
      simp only [List.mem_append]
      push_neg
      exact ⟨hq, by decide⟩
    have hh2 : '#' ∉ k ++ str "/" := by
      simp only [List.mem_append]
      push_neg
      exact ⟨hh, by decide⟩
    have hrepl : (str "/") = List.replicate 1 '/' := rfl
    simp only [do_GET]
    rw [urlparsePath_eq_self hq2 hh2, hrepl, normalize_append_replicate, hnorm, hres]
    simp [hct, hfs]

/-- Witness for C1: the `/wallet` route against a concrete filesystem. -/
theorem C1_route_table_serves_html_witness :
    ((str "/wallet", str "/b/wallet/index.html") ∈ ROUTES (str "/b") ∧
      fsWallet (str "/b/wallet/index.html") = some [1, 2]) ∧
    do_GET (str "/b") fsWallet (str "/wallet") =
      { status := 200, contentType := some (str "text/html; charset=utf-8"), body := [1, 2] } ∧
    do_GET (str "/b") fsWallet (str "/wallet" ++ str "/") =
      { status := 200, contentType := some (str "text/html; charset=utf-8"), body := [1, 2] } :=
  ⟨⟨by decide, by decide⟩,
    C1_route_table_serves_html (str "/b") fsWallet (str "/wallet")
      (str "/b/wallet/index.html") [1, 2] (by decide) (by decide)⟩

/-- Claim C2, counterexample: normalization does not strip exactly one
trailing slash — on `/wallet//` the code yields `/wallet`, not `/wallet/`. -/
theorem C2_single_slash_cex :
    ¬ (normalize (str "/wallet//") = str "/wallet/") := by decide

/-- Claim C2 (amended): normalization strips all trailing slashes, not just
one — appending any number of trailing slashes leaves the normalized path
unchanged — and a path consisting only of slashes (or empty) normalizes
to `/`. -/
theorem C2_strip_all_trailing_slashes (raw : PyStr) (n : Nat) :
    normalize (raw ++ List.replicate n '/') = normalize raw ∧
      ((∀ c ∈ raw, c = '/') → normalize raw = str "/") := by
  refine ⟨normalize_append_replicate raw n, ?_⟩
  intro h
  have he : rstripSlash raw = [] := by
    have hd : List.dropWhile (fun c => decide (c = '/')) raw.reverse = [] :=
      List.dropWhile_eq_nil_iff.mpr (by
        intro x hx
        simp only [decide_eq_true_eq]
        exact h x (List.mem_reverse.mp hx))
    unfold rstripSlash
    rw [hd]
    rfl
  unfold normalize
  rw [he, if_pos rfl]

/-- Witness for C2 (amended) on the all-slash path `//`. -/
theorem C2_strip_all_trailing_slashes_witness :
    (∀ c ∈ str "//", c = '/') ∧
      normalize (str "//" ++ List.replicate 2 '/') = normalize (str "//") ∧
      normalize (str "//") = str "/" :=
  ⟨by decide, (C2_strip_all_trailing_slashes (str "//") 2).1,
    (C2_strip_all_trailing_slashes (str "//") 2).2 (by decide)⟩

/-- Claim C4: a GET request to `/llms.txt` returns 200 with Content-Type
`text/plain` and the exact bytes of the top-level `llms.txt` file if and only
if that file exists; otherwise it returns 404. -/
theorem C4_top_level_llms (base : PyStr) (fs : FS) :
    do_GET base fs (str "/llms.txt") =
      match fs (osPathJoin base [str "llms.txt"]) with
      | some c =>
        { status := 200, contentType := some (str "text/plain; charset=utf-8"), body := c }
      | none => { status := 404, contentType := none, body := [] } := by
  have hget : dictGet (ROUTES base) (str "/llms.txt") = none := by
    apply dictGet_eq_none
    rw [ROUTES_keys]
    decide
  simp only [do_GET]
  rw [show urlparsePath (str "/llms.txt") = str "/llms.txt" from by decide,
    show normalize (str "/llms.txt") = str "/llms.txt" from by decide]
  unfold resolve_file
  rw [hget]
  unfold resolveLlms
  rw [if_pos rfl, osPathJoin_one]
  rcases hf : fs (joinOne base (str "llms.txt")) with _ | c
  · simp [existsFS, hf]
  · simp [existsFS, hf, content_type_llms]

theorem resolveLlms_isSome {base : PyStr} {fs : FS} {p f : PyStr}
    (h : resolveLlms base fs p = some f) : ∃ c, fs f = some c := by
  unfold resolveLlms at h
  dsimp only at h
  split at h
  · split at h
    · injection h with h1
      subst h1
      rename_i hex
      exact Option.isSome_iff_exists.mp hex
    · exact absurd h (by simp)
  · split at h
    · split at h
      · split at h
        · injection h with h1
          subst h1
          rename_i hex
          exact Option.isSome_iff_exists.mp hex
        · exact absurd h (by simp)
      · exact absurd h (by simp)
    · exact absurd h (by simp)

theorem resolve_file_isSome {base : PyStr} {fs : FS} {p f : PyStr}
    (h : resolve_file base fs p = some f) : ∃ c, fs f = some c := by
  unfold resolve_file at h
  split at h
  · split at h
    · injection h with h1
      subst h1
      rename_i hcond
      rw [Bool.and_eq_true] at hcond
      exact Option.isSome_iff_exists.mp hcond.2
    · exact resolveLlms_isSome h
  · exact resolveLlms_isSome h

/-- Claim C5: every GET request produces one of exactly two outcomes —
200 with the resolved file's bytes as body, or 404 with an empty body;
every failed resolution yields the 404-with-empty-body outcome. -/
theorem C5_two_outcomes (base : PyStr) (fs : FS) (target : PyStr) :
    (∃ f c, resolve_file base fs (normalize (urlparsePath target)) = some f ∧
      fs f = some c ∧
      do_GET base fs target =
        { status := 200, contentType := some (content_type f), body := c }) ∨
    (resolve_file base fs (normalize (urlparsePath target)) = none ∧
      do_GET base fs target = { status := 404, contentType := none, body := [] }) := by
  rcases hres : resolve_file base fs (normalize (urlparsePath target)) with _ | f
  · right
    refine ⟨rfl, ?_⟩
    simp only [do_GET]
    rw [hres]
  · left
    obtain ⟨c, hc⟩ := resolve_file_isSome hres
    refine ⟨f, c, rfl, hc, ?_⟩
    simp only [do_GET]
    rw [hres]
    simp [hc]

/-- Claim C6: a GET request to `p` with a query string resolves and responds
identically to a GET request to `p` alone. -/
theorem C6_query_string_ignored (base : PyStr) (fs : FS) (p q : PyStr)
    (hq : '?' ∉ p) (hh : '#' ∉ p) :
    do_GET base fs (p ++ '?' :: q) = do_GET base fs p := by
  simp only [do_GET]
  rw [urlparsePath_query p q hq hh, urlparsePath_eq_self hq hh]

/-- Witness for C6: `/wallet?x=1` answers exactly as `/wallet`. -/
theorem C6_query_string_ignored_witness :
    ('?' ∉ str "/wallet" ∧ '#' ∉ str "/wallet") ∧
      do_GET (str "/b") fsEmpty (str "/wallet" ++ '?' :: str "x=1") =
        do_GET (str "/b") fsEmpty (str "/wallet") :=
  ⟨⟨by decide, by decide⟩,
    C6_query_string_ignored (str "/b") fsEmpty (str "/wallet") (str "x=1")
      (by decide) (by decide)⟩

/-- Claim C7: the inferred Content-Type is `text/html; charset=utf-8` for
filenames ending `.html`, `text/plain; charset=utf-8` for filenames ending
`.txt`, and `application/octet-stream` otherwise. -/
theorem C7_content_type_inference (fp : PyStr) :
    (endsWith (str ".html") fp = true → content_type fp = str "text/html; charset=utf-8") ∧
    (endsWith (str ".txt") fp = true → content_type fp = str "text/plain; charset=utf-8") ∧
    (endsWith (str ".html") fp = false → endsWith (str ".txt") fp = false →
      content_type fp = str "application/octet-stream") := by
  refine ⟨?_, ?_, ?_⟩
  · intro h
    simp [content_type, h]
  · intro h
    have hh : endsWith (str ".html") fp = false := by
      by_contra hcon
      rw [Bool.not_eq_false, endsWith_iff] at hcon
      rw [endsWith_iff] at h
      rcases List.suffix_or_suffix_of_suffix h hcon with hs | hs
      · exact absurd hs (by decide)
      · exact absurd hs (by decide)
    simp [content_type, hh, h]
  · intro h1 h2
    simp [content_type, h1, h2]

/-- Witness for C7 at `.html`, `.txt` and other filenames. -/
theorem C7_content_type_inference_witness :
    (endsWith (str ".html") (str "a.html") = true ∧
      content_type (str "a.html") = str "text/html; charset=utf-8") ∧
    (endsWith (str ".txt") (str "a.txt") = true ∧
      content_type (str "a.txt") = str "text/plain; charset=utf-8") ∧
    (endsWith (str ".html") (str "a.bin") = false ∧
      endsWith (str ".txt") (str "a.bin") = false ∧
      content_type (str "a.bin") = str "application/octet-stream") :=
  ⟨⟨by decide, (C7_content_type_inference (str "a.html")).1 (by decide)⟩,
    ⟨by decide, (C7_content_type_inference (str "a.txt")).2.1 (by decide)⟩,
    ⟨by decide, by decide,
      (C7_content_type_inference (str "a.bin")).2.2 (by decide) (by decide)⟩⟩

/-- Claim C8: with a fixed filesystem, identical GET requests anywhere in a
request sequence produce identical responses — the handler is a pure
function of the request and keeps no state between requests. -/
theorem C8_stateless_deterministic (base : PyStr) (fs : FS) (pre mid post : List PyStr)
    (t : PyStr) :
    serveAll base fs (pre ++ t :: mid ++ t :: post) =
      serveAll base fs pre ++
        do_GET base fs t ::
          (serveAll base fs mid ++ do_GET base fs t :: serveAll base fs post) := by
  simp [serveAll]

/-- Claim C9: for every route key `k` and every `n ≥ 0`, a GET request to
`k` followed by `n` slashes resolves identically to a request to `k`, and a
path consisting only of slashes normalizes to `/`. -/
theorem C9_all_trailing_slashes (base : PyStr) (fs : FS) (k f : PyStr) (n : Nat)
    (hmem : (k, f) ∈ ROUTES base) :
    do_GET base fs (k ++ List.replicate n '/') = do_GET base fs k ∧
      normalize (str "///") = str "/" := by
  obtain ⟨hq, hh, -, -⟩ := key_norm hmem
  refine ⟨?_, by decide⟩
  have hmemrep : ∀ x : Char, x ≠ '/' → x ∉ k → x ∉ k ++ List.replicate n '/' := by
    intro x hx hxk hcon
    rcases List.mem_append.mp hcon with hc | hc
    · exact hxk hc
    · exact hx (List.mem_replicate.mp hc).2
  simp only [do_GET]
  rw [urlparsePath_eq_self (hmemrep '?' (by decide) hq) (hmemrep '#' (by decide) hh),
    urlparsePath_eq_self hq hh, normalize_append_replicate]

/-- Witness for C9: `/wallet///` answers exactly as `/wallet`. -/
theorem C9_all_trailing_slashes_witness :
    ((str "/wallet", str "/b/wallet/index.html") ∈ ROUTES (str "/b")) ∧
      do_GET (str "/b") fsWallet (str "/wallet" ++ List.replicate 3 '/') =
        do_GET (str "/b") fsWallet (str "/wallet") ∧
      normalize (str "///") = str "/" :=
  ⟨by decide,
    C9_all_trailing_slashes (str "/b") fsWallet (str "/wallet")
      (str "/b/wallet/index.html") 3 (by decide)⟩

theorem dictGet_routes_none_of_llms {base p : PyStr}
    (h1 : endsWith (str "/llms.txt") p = true) :
    dictGet (ROUTES base) p = none := by
  apply dictGet_eq_none
  rw [ROUTES_keys]
  intro hmem
  have hf := KEYS_no_llms p hmem
  rw [hf] at h1
  exact absurd h1 (by decide)

/-- Claim C3: a normalized path ending in `/llms.txt`, other than `/llms.txt`
itself, with exactly two segments (a section name, then `llms.txt`) resolves
to `<section>/llms.txt` when that file exists; and a path of three or more
segments ending in `/llms.txt` answers 404 regardless of the filesystem. -/
theorem C3_section_llms :
    (∀ (base : PyStr) (fs : FS) (p sec : PyStr) (c : Bytes),
      endsWith (str "/llms.txt") p = true →
      p ≠ str "/llms.txt" →
      splitSlash (stripSlash p) = [sec, str "llms.txt"] →
      fs (osPathJoin base [sec, str "llms.txt"]) = some c →
      resolve_file base fs p = some (osPathJoin base [sec, str "llms.txt"])) ∧
    (∀ (base : PyStr) (fs : FS) (p : PyStr),
      '?' ∉ p → '#' ∉ p →
      endsWith (str "/llms.txt") p = true →
      3 ≤ (splitSlash (stripSlash p)).length →
      do_GET base fs p = { status := 404, contentType := none, body := [] }) := by
  constructor
  · intro base fs p sec c h1 h2 h3 hfs
    unfold resolve_file
    rw [dictGet_routes_none_of_llms h1]
    unfold resolveLlms
    rw [if_neg h2, if_pos h1, h3]
    dsimp only
    rw [if_pos (by simp [existsFS, hfs])]
  · intro base fs p hq hh h1 hlen
    have hp : str "/llms.txt" <:+ p := endsWith_iff.mp h1
    have hne : p ≠ str "/llms.txt" := by
      intro e
      rw [e] at hlen
      revert hlen
      decide
    have hnorm : normalize p = p := by
      have hpne : p ≠ [] := by
        intro e
        rw [e] at hp
        have h0 := List.suffix_nil.mp hp
        exact absurd h0 (by decide)
      have hlast : p.getLast? ≠ some '/' := by
        rw [getLast?_of_suffix hp (by decide)]
        decide
      unfold normalize
      rw [rstripSlash_eq_self hlast, if_neg hpne]
    simp only [do_GET]
    rw [urlparsePath_eq_self hq hh, hnorm]
    unfold resolve_file
    rw [dictGet_routes_none_of_llms h1]
    unfold resolveLlms
    rw [if_neg hne, if_pos h1]
    rcases hs : splitSlash (stripSlash p) with _ | ⟨a, _ | ⟨b, _ | ⟨d, rest⟩⟩⟩
    · exact absurd hs (splitSlash_ne_nil _)
    · have h2 : (3 : Nat) ≤ ([a] : List PyStr).length := hs ▸ hlen
      simp at h2
    · have h2 : (3 : Nat) ≤ ([a, b] : List PyStr).length := hs ▸ hlen
      simp at h2
    · rfl

/-- Witness for C3: `/wallet/llms.txt` resolves; `/a/b/llms.txt` answers 404. -/
theorem C3_section_llms_witness :
    (endsWith (str "/llms.txt") (str "/wallet/llms.txt") = true ∧
      splitSlash (stripSlash (str "/wallet/llms.txt")) = [str "wallet", str "llms.txt"] ∧
      fsLlms (osPathJoin (str "/b") [str "wallet", str "llms.txt"]) = some [7] ∧
      resolve_file (str "/b") fsLlms (str "/wallet/llms.txt") =
        some (osPathJoin (str "/b") [str "wallet", str "llms.txt"])) ∧
    (endsWith (str "/llms.txt") (str "/a/b/llms.txt") = true ∧
      3 ≤ (splitSlash (stripSlash (str "/a/b/llms.txt"))).length ∧
      do_GET (str "/b") fsLlms (str "/a/b/llms.txt") =
        { status := 404, contentType := none, body := [] }) :=
  ⟨⟨by decide, by decide, by decide,
      C3_section_llms.1 (str "/b") fsLlms (str "/wallet/llms.txt") (str "wallet") [7]
        (by decide) (by decide) (by decide) (by decide)⟩,
    ⟨by decide, by decide,
      C3_section_llms.2 (str "/b") fsLlms (str "/a/b/llms.txt")
        (by decide) (by decide) (by decide) (by decide)⟩⟩

/-! ### Lemmas for path traversal through `..` (C10) -/

theorem joinSegs_shape (s : PyStr) (rest : List PyStr) :
    (rest = [] ∧ joinSegs (s :: rest) = s) ∨
      (rest ≠ [] ∧ joinSegs (s :: rest) = s ++ '/' :: joinSegs rest) := by
  cases rest with
  | nil => exact Or.inl ⟨rfl, rfl⟩
  | cons b bs => exact Or.inr ⟨by simp, rfl⟩

theorem getLast?_joinSegs_ne_slash : ∀ (bs : List PyStr) (l : PyStr), bs ≠ [] →
    (∀ s ∈ bs, s ≠ [] ∧ '/' ∉ s) → (l ++ joinSegs bs).getLast? ≠ some '/' := by
  intro bs
  induction bs with
  | nil =>
    intro l h _
    exact absurd rfl h
  | cons s rest ih =>
    intro l _ hclean
    rcases joinSegs_shape s rest with ⟨-, he⟩ | ⟨hr, he⟩
    · rw [he]
      exact getLast?_append_no_slash (hclean s (by simp)).1 (hclean s (by simp)).2 l
    · rw [he]
      have hassoc : l ++ (s ++ '/' :: joinSegs rest) = ((l ++ s) ++ ['/']) ++ joinSegs rest := by
        simp
      rw [hassoc]
      exact ih ((l ++ s) ++ ['/']) hr (fun x hx => hclean x (by simp [hx]))

theorem joinSegs_head_shape {bs : List PyStr} (hne : bs ≠ [])
    (hclean : ∀ s ∈ bs, s ≠ [] ∧ '/' ∉ s) (r : PyStr) :
    ∃ c t, joinSegs bs ++ r = c :: t ∧ c ≠ '/' := by
  rcases bs with _ | ⟨s, rest⟩
  · exact absurd rfl hne
  · have hs := hclean s (by simp)
    rcases s with _ | ⟨c, s'⟩
    · exact absurd rfl hs.1
    · have hcne : c ≠ '/' := by
        intro e
        apply hs.2
        rw [e]
        exact List.mem_cons_self _ _
      rcases joinSegs_shape (c :: s') rest with ⟨-, he⟩ | ⟨-, he⟩
      · exact ⟨c, s' ++ r, by rw [he, List.cons_append], hcne⟩
      · exact ⟨c, (s' ++ '/' :: joinSegs rest) ++ r, by rw [he]; simp, hcne⟩

theorem stripSlash_slash_cons {c : Char} (t : PyStr) (hc : c ≠ '/')
    (hlast : (c :: t).getLast? ≠ some '/') :
    stripSlash ('/' :: c :: t) = c :: t := by
  unfold stripSlash
  rw [List.dropWhile_cons_of_pos (by decide),
    List.dropWhile_cons_of_neg (by simpa using hc)]
  exact rstripSlash_eq_self hlast

theorem splitSlash_joinSegs : ∀ (bs : List PyStr), bs ≠ [] → (∀ s ∈ bs, '/' ∉ s) →
    splitSlash (joinSegs bs) = bs := by
  intro bs
  induction bs with
  | nil =>
    intro h _
    exact absurd rfl h
  | cons s rest ih =>
    intro _ hclean
    rcases joinSegs_shape s rest with ⟨hr, he⟩ | ⟨hr, he⟩
    · subst hr
      rw [he]
      exact splitSlash_no_slash (hclean s (by simp))
    · rw [he, splitSlash_append_slash, splitSlash_no_slash (hclean s (by simp)),
        ih hr (fun x hx => hclean x (by simp [hx]))]
      rfl

theorem foldl_stepSeg_clean : ∀ (bs : List PyStr) (acc : List PyStr),
    (∀ s ∈ bs, s ≠ [] ∧ s ≠ str "." ∧ s ≠ str "..") →
    bs.foldl stepSeg acc = acc ++ bs := by
  intro bs
  induction bs with
  | nil =>
    intro acc _
    simp
  | cons s rest ih =>
    intro acc hclean
    obtain ⟨h1, h2, h3⟩ := hclean s (by simp)
    rw [List.foldl_cons]
    have hs : stepSeg acc s = acc ++ [s] := by
      unfold stepSeg
      rw [if_neg (by simp [h1, h2]), if_neg h3]
    rw [hs, ih (acc ++ [s]) (fun x hx => hclean x (by simp [hx]))]
    simp

theorem joinUp_eq {bs : List PyStr} (hne : bs ≠ [])
    (hclean : ∀ s ∈ bs, s ≠ [] ∧ '/' ∉ s) :
    osPathJoin (joinAbs bs) [str "..", str "llms.txt"] =
      joinAbs bs ++ str "/../llms.txt" := by
  rw [osPathJoin_two]
  have h1 : joinOne (joinAbs bs) (str "..") = joinAbs bs ++ '/' :: str ".." := by
    have hcond : ¬ (joinAbs bs = [] ∨ (joinAbs bs).getLast? = some '/') := by
      push_neg
      constructor
      · simp [joinAbs]
      · show (['/'] ++ joinSegs bs).getLast? ≠ some '/'
        exact getLast?_joinSegs_ne_slash bs ['/'] hne hclean
    unfold joinOne
    rw [if_neg (by decide), if_neg hcond]
  have h2 : joinOne (joinAbs bs ++ '/' :: str "..") (str "llms.txt") =
      (joinAbs bs ++ '/' :: str "..") ++ '/' :: str "llms.txt" := by
    have hcond : ¬ ((joinAbs bs ++ '/' :: str "..") = [] ∨
        (joinAbs bs ++ '/' :: str "..").getLast? = some '/') := by
      push_neg
      constructor
      · simp
      · have hsp : joinAbs bs ++ '/' :: str ".." = (joinAbs bs ++ ['/']) ++ str ".." := by
          simp
        rw [hsp]
        exact getLast?_append_no_slash (by decide) (by decide) _
    unfold joinOne
    rw [if_neg (by decide), if_neg hcond]
  rw [h1, h2, List.append_assoc]
  have hx : ('/' :: str "..") ++ '/' :: str "llms.txt" = str "/../llms.txt" := by decide
  rw [hx]

theorem strip_joinUp {bs : List PyStr} (hne : bs ≠ [])
    (hclean : ∀ s ∈ bs, s ≠ [] ∧ '/' ∉ s) :
    stripSlash (joinAbs bs ++ str "/../llms.txt") = joinSegs bs ++ str "/../llms.txt" := by
  obtain ⟨c, t, he, hc⟩ := joinSegs_head_shape hne hclean (str "/../llms.txt")
  have hlast : (joinSegs bs ++ str "/../llms.txt").getLast? ≠ some '/' := by
    have hsp : joinSegs bs ++ str "/../llms.txt" =
        (joinSegs bs ++ str "/../") ++ str "llms.txt" := by
      rw [List.append_assoc]
      have hy : str "/../" ++ str "llms.txt" = str "/../llms.txt" := by decide
      rw [hy]
    rw [hsp]
    exact getLast?_append_no_slash (by decide) (by decide) _
  have hj : joinAbs bs ++ str "/../llms.txt" = '/' :: (joinSegs bs ++ str "/../llms.txt") := by
    simp [joinAbs]
  rw [hj, he]
  rw [he] at hlast
  exact stripSlash_slash_cons t hc hlast

theorem interpPath_joinUp {bs : List PyStr} (hne : bs ≠ [])
    (hclean : ∀ s ∈ bs, s ≠ [] ∧ '/' ∉ s ∧ s ≠ str "." ∧ s ≠ str "..") :
    interpPath (osPathJoin (joinAbs bs) [str "..", str "llms.txt"]) =
      bs.dropLast ++ [str "llms.txt"] := by
  have hc1 : ∀ s ∈ bs, s ≠ [] ∧ '/' ∉ s := fun s hs => ⟨(hclean s hs).1, (hclean s hs).2.1⟩
  rw [joinUp_eq hne hc1]
  unfold interpPath
  rw [strip_joinUp hne hc1]
  have hx : str "/../llms.txt" = '/' :: (str ".." ++ '/' :: str "llms.txt") := by decide
  rw [hx, splitSlash_append_slash,
    splitSlash_joinSegs bs hne (fun s hs => (hclean s hs).2.1),
    show splitSlash (str ".." ++ '/' :: str "llms.txt") = [str "..", str "llms.txt"] from
      by decide,
    List.foldl_append,
    foldl_stepSeg_clean bs []
      (fun s hs => ⟨(hclean s hs).1, (hclean s hs).2.2.1, (hclean s hs).2.2.2⟩)]
  have hdot : stepSeg ([] ++ bs) (str "..") = bs.dropLast := by
    unfold stepSeg
    rw [if_neg (by decide), if_pos rfl]
    simp
  rw [List.foldl_cons, hdot, List.foldl_cons]
  have hll : stepSeg bs.dropLast (str "llms.txt") = bs.dropLast ++ [str "llms.txt"] := by
    unfold stepSeg
    rw [if_neg (by decide), if_neg (by decide)]
  rw [hll]
  rfl

theorem interpPath_joinAbs {bs : List PyStr} (hne : bs ≠ [])
    (hclean : ∀ s ∈ bs, s ≠ [] ∧ '/' ∉ s ∧ s ≠ str "." ∧ s ≠ str "..") :
    interpPath (joinAbs bs) = bs := by
  have hc1 : ∀ s ∈ bs, s ≠ [] ∧ '/' ∉ s := fun s hs => ⟨(hclean s hs).1, (hclean s hs).2.1⟩
  unfold interpPath
  obtain ⟨c, t, he, hc⟩ := joinSegs_head_shape hne hc1 []
  rw [List.append_nil] at he
  have hlast : (c :: t).getLast? ≠ some '/' := by
    rw [← he]
    have hg := getLast?_joinSegs_ne_slash bs [] hne hc1
    simpa using hg
  have hj : joinAbs bs = '/' :: (c :: t) := by
    rw [joinAbs, he]
  rw [hj, stripSlash_slash_cons t hc hlast, ← he,
    splitSlash_joinSegs bs hne (fun s hs => (hclean s hs).2.1),
    foldl_stepSeg_clean bs []
      (fun s hs => ⟨(hclean s hs).1, (hclean s hs).2.2.1, (hclean s hs).2.2.2⟩)]
  rfl

/-- Claim C10: the section segment of a two-segment `/llms.txt` request is
joined into the filesystem path without validation, so the request path
`/../llms.txt` resolves to `BASE/../llms.txt` — a file outside the server's
base directory (the `llms.txt` in the parent directory) — whenever that file
exists. `bs` is the segment list of the base directory; `interpPath` resolves
`..` segments, and the resolved file is not under the base directory. -/
theorem C10_path_traversal (fs : FS) (bs : List PyStr) (c : Bytes)
    (hne : bs ≠ [])
    (hclean : ∀ s ∈ bs, s ≠ [] ∧ '/' ∉ s ∧ s ≠ str "." ∧ s ≠ str "..")
    (hlast : bs.getLast? ≠ some (str "llms.txt"))
    (hfs : fs (osPathJoin (joinAbs bs) [str "..", str "llms.txt"]) = some c) :
    resolve_file (joinAbs bs) fs (str "/../llms.txt") =
      some (osPathJoin (joinAbs bs) [str "..", str "llms.txt"]) ∧
    interpPath (joinAbs bs) = bs ∧
    interpPath (osPathJoin (joinAbs bs) [str "..", str "llms.txt"]) =
      bs.dropLast ++ [str "llms.txt"] ∧
    (interpPath (osPathJoin (joinAbs bs) [str "..", str "llms.txt"])).take bs.length ≠ bs := by
  have hup := interpPath_joinUp hne hclean
  refine ⟨?_, interpPath_joinAbs hne hclean, hup, ?_⟩
  · have hget : dictGet (ROUTES (joinAbs bs)) (str "/../llms.txt") = none := by
      apply dictGet_eq_none
      rw [ROUTES_keys]
      decide
    unfold resolve_file
    rw [hget]
    unfold resolveLlms
    rw [if_neg (by decide), if_pos (by decide),
      show splitSlash (stripSlash (str "/../llms.txt")) = [str "..", str "llms.txt"] from
        by decide]
    dsimp only
    rw [if_pos (by simp [existsFS, hfs])]
  · rw [hup]
    have hpos : 0 < bs.length := List.length_pos.mpr hne
    have htake : (bs.dropLast ++ [str "llms.txt"]).take bs.length =
        bs.dropLast ++ [str "llms.txt"] := by
      apply List.take_of_length_le
      simp only [List.length_append, List.length_dropLast, List.length_cons,
        List.length_nil]
      omega
    rw [htake]
    intro he
    have h1 : (bs.dropLast ++ [str "llms.txt"]).getLast? = some (str "llms.txt") :=
      List.getLast?_concat _
    rw [he] at h1
    exact hlast h1

/-- Witness for C10 with base directory `/srv/site`. -/
theorem C10_path_traversal_witness :
    ([str "srv", str "site"] ≠ ([] : List PyStr) ∧
      fsUp (osPathJoin (joinAbs [str "srv", str "site"]) [str "..", str "llms.txt"]) =
        some [9]) ∧
    (resolve_file (joinAbs [str "srv", str "site"]) fsUp (str "/../llms.txt") =
        some (osPathJoin (joinAbs [str "srv", str "site"]) [str "..", str "llms.txt"]) ∧
      interpPath (joinAbs [str "srv", str "site"]) = [str "srv", str "site"] ∧
      interpPath (osPathJoin (joinAbs [str "srv", str "site"]) [str "..", str "llms.txt"]) =
        [str "srv", str "site"].dropLast ++ [str "llms.txt"] ∧
      (interpPath
          (osPathJoin (joinAbs [str "srv", str "site"]) [str "..", str "llms.txt"])).take
          [str "srv", str "site"].length ≠ [str "srv", str "site"]) :=
  ⟨⟨by decide, by decide⟩,
    C10_path_traversal fsUp [str "srv", str "site"] [9] (by decide) (by decide)
      (by decide) (by decide)⟩

end Serve
